import Mathlib

/-!
# Verification of the `lz4_stream` adapters (`src/include/lz4_stream.h`)

A shallow embedding of the two stream adapters of the repository:

* `output_buffer` — the compressing sink adapter (`basic_ostream`'s streambuf):
  a raw-byte accumulation buffer (`m_sourceBuffer`, put area set by
  `setp(base, base + size - 1)`), an encoder session, and the frame lifecycle
  `WriteHeader` / `CompressAndWrite` / `WriteFooter` / `Close`.
* `input_buffer` — the decompressing source adapter (`basic_istream`'s
  streambuf): the `underflow` pull loop with its refill / end-of-stream /
  decode bookkeeping (`m_offset`, `m_sourceBufferSize`).

Bytes are modelled as `Nat` (the adapters never inspect byte values).  The
LZ4F codec is an external collaborator: the sink side is parametric in an
`Encoder` record (`LZ4F_compressBegin` / `LZ4F_compressUpdate` /
`LZ4F_compressEnd`, each returning either the emitted bytes or an error
message, threading the session state), the source side in a decompress
function (`LZ4F_decompress`: consumed count, produced bytes, next session
state, or an error message).  A concrete model codec whose decoder inverts
its encoder (`modelEncoder` / `modelDecompress`) instantiates the round-trip
law.  Fallible C++ paths (`throw std::runtime_error`) are modelled with
`Except String`; the `assert(!m_closed)` statements are modelled as fatal
errors (their assert-enabled semantics).  The `underflow` loop is modelled
with explicit fuel (`UOut.spin` = the loop did not finish within the fuel),
and it records a trace of its upstream reads and decoder calls (`UEvent`).
-/

/-- The encoder collaborator contract (`LZ4F_compress*` over a session of
type `ε`): each operation returns the compressed bytes it emitted and the
next session state, or an error message (`LZ4F_isError` / name). -/
structure Encoder (ε : Type) where
  compressBegin : ε → Except String (List Nat × ε)
  compressUpdate : ε → List Nat → Except String (List Nat × ε)
  compressEnd : ε → Except String (List Nat × ε)

/-- State of the compressing sink adapter `output_buffer`.
`cap` is `SrcBufSize` (the size of `m_sourceBuffer`); `sourceBuffer` holds
the pending raw bytes (`pptr() - pbase()` of them); `sink` is everything
written to `m_sink` so far; `ctx` is the encoder session (`m_context`);
`frees` counts the `LZ4F_freeCompressionContext` calls performed. -/
structure output_buffer (ε : Type) where
  cap : Nat
  sourceBuffer : List Nat
  sink : List Nat
  ctx : ε
  closed : Bool
  frees : Nat
deriving DecidableEq

/-- `output_buffer::CompressAndWrite`: `assert(!m_closed)`; reset the put
area; `LZ4F_compressUpdate` on the pending bytes; on success append the
compressed bytes to the sink, on error throw `"LZ4 compression failed: "`. -/
def output_buffer.CompressAndWrite {ε : Type} (E : Encoder ε) (b : output_buffer ε) :
    Except String (output_buffer ε) :=
  if b.closed then .error "assertion failed: !m_closed"
  else
    match E.compressUpdate b.ctx b.sourceBuffer with
    | .error m => .error ("LZ4 compression failed: " ++ m)
    | .ok (o, c') => .ok { b with sourceBuffer := [], ctx := c', sink := b.sink ++ o }

/-- `output_buffer::sync`: a flush is exactly one `CompressAndWrite`. -/
def output_buffer.sync {ε : Type} (E : Encoder ε) (b : output_buffer ε) :
    Except String (output_buffer ε) :=
  output_buffer.CompressAndWrite E b

/-- `output_buffer::overflow(c)`: store `c` at `pptr()` (the reserved slot),
`pbump(1)`, then `CompressAndWrite`. -/
def output_buffer.overflow {ε : Type} (E : Encoder ε) (b : output_buffer ε) (ch : Nat) :
    Except String (output_buffer ε) :=
  output_buffer.CompressAndWrite E { b with sourceBuffer := b.sourceBuffer ++ [ch] }

/-- `std::streambuf::sputc` against the put area installed by
`setp(base, base + size - 1)`: while `pptr() < epptr()` (fewer than
`cap - 1` pending bytes) the byte is stored directly; otherwise
`overflow` is called. This is the adapter's per-byte write entry point. -/
def output_buffer.sputc {ε : Type} (E : Encoder ε) (b : output_buffer ε) (ch : Nat) :
    Except String (output_buffer ε) :=
  if b.sourceBuffer.length < b.cap - 1 then
    .ok { b with sourceBuffer := b.sourceBuffer ++ [ch] }
  else
    output_buffer.overflow E b ch

/-- `output_buffer::WriteHeader`: `assert(!m_closed)`; `LZ4F_compressBegin`;
write the header bytes to the sink, or throw
`"Failed to start LZ4 compression: "`. -/
def output_buffer.WriteHeader {ε : Type} (E : Encoder ε) (b : output_buffer ε) :
    Except String (output_buffer ε) :=
  if b.closed then .error "assertion failed: !m_closed"
  else
    match E.compressBegin b.ctx with
    | .error m => .error ("Failed to start LZ4 compression: " ++ m)
    | .ok (o, c') => .ok { b with ctx := c', sink := b.sink ++ o }

/-- `output_buffer::WriteFooter`: `assert(!m_closed)`; `LZ4F_compressEnd`;
write the footer bytes to the sink, or throw
`"Failed to end LZ4 compression: "`. -/
def output_buffer.WriteFooter {ε : Type} (E : Encoder ε) (b : output_buffer ε) :
    Except String (output_buffer ε) :=
  if b.closed then .error "assertion failed: !m_closed"
  else
    match E.compressEnd b.ctx with
    | .error m => .error ("Failed to end LZ4 compression: " ++ m)
    | .ok (o, c') => .ok { b with ctx := c', sink := b.sink ++ o }

/-- `output_buffer::Close`: if already closed, return; otherwise `sync()`,
`WriteFooter()`, `LZ4F_freeCompressionContext` (counted in `frees`),
`m_closed = true`.  Note that, as in the source, an error thrown by the
flush or the footer skips the context release. -/
def output_buffer.Close {ε : Type} (E : Encoder ε) (b : output_buffer ε) :
    Except String (output_buffer ε) :=
  if b.closed then .ok b
  else
    match output_buffer.sync E b with
    | .error m => .error m
    | .ok b1 =>
      match output_buffer.WriteFooter E b1 with
      | .error m => .error m
      | .ok b2 => .ok { b2 with frees := b2.frees + 1, closed := true }

/-- The `output_buffer` constructor after a successful
`LZ4F_createCompressionContext` (session state `c0`): install the put area
(empty, reserved capacity `cap - 1`) and `WriteHeader`.  The second
component counts the `LZ4F_freeCompressionContext` calls performed when
construction ends: as in the source it is `0` on every path — in
particular a constructor throw after the context was created releases
nothing (the destructor of a partially constructed object never runs). -/
def constructOutput {ε : Type} (E : Encoder ε) (cap : Nat) (c0 : ε) :
    Except String (output_buffer ε) × Nat :=
  let b0 : output_buffer ε :=
    { cap := cap, sourceBuffer := [], sink := [], ctx := c0, closed := false, frees := 0 }
  match output_buffer.WriteHeader E b0 with
  | .error m => (.error m, 0)
  | .ok b1 => (.ok b1, 0)

/-- Writing a byte sequence through the adapter: one `sputc` per byte
(`std::ostream::write` delegates to the streambuf byte by byte). -/
def writeBytes {ε : Type} (E : Encoder ε) : output_buffer ε → List Nat → Except String (output_buffer ε)
  | b, [] => .ok b
  | b, ch :: rest =>
    match output_buffer.sputc E b ch with
    | .error m => .error m
    | .ok b' => writeBytes E b' rest

/-- Full sink-side lifecycle: construct over an empty sink, write `S`,
`Close` (as the `basic_ostream` destructor does); result is the sink's
final contents. -/
def compressStream {ε : Type} (E : Encoder ε) (cap : Nat) (c0 : ε) (S : List Nat) :
    Except String (List Nat) :=
  match constructOutput E cap c0 with
  | (.error m, _) => .error m
  | (.ok b0, _) =>
    match writeBytes E b0 S with
    | .error m => .error m
    | .ok b1 =>
      match output_buffer.Close E b1 with
      | .error m => .error m
      | .ok b2 => .ok b2.sink

/-- Body-update encoding of the model codec: an empty update emits nothing,
a nonempty block `bl` is framed as tag `1`, its length, then the bytes. -/
def modelUpdate (inp : List Nat) : List Nat :=
  if inp = [] then [] else 1 :: inp.length :: inp

/-- The model encoder collaborator: header byte `0`, length-framed body
blocks, footer byte `2`.  Its session state records the list of update
inputs, so theorems can observe exactly which flushes reached the codec. -/
def modelEncoder : Encoder (List (List Nat)) :=
  { compressBegin := fun st => .ok ([0], st)
  , compressUpdate := fun st inp => .ok (modelUpdate inp, st ++ [inp])
  , compressEnd := fun st => .ok ([2], st) }

/-- Concatenated framing of a list of (nonempty) body blocks. -/
def frames : List (List Nat) → List Nat
  | [] => []
  | bl :: rest => (1 :: bl.length :: bl) ++ frames rest

/-- The decoder collaborator contract (`LZ4F_decompress` over a session of
type `σ`): given the session, the offered input span and the output buffer
capacity, return the number of input bytes consumed, the produced bytes
(at most the capacity) and the next session state, or an error message. -/
def DecompressFn (σ : Type) : Type :=
  σ → List Nat → Nat → Except String (Nat × List Nat × σ)

/-- State of the decompressing source adapter `input_buffer`.
`upstream` is what the upstream `m_source` will still deliver;
`sourceBuffer` holds the valid bytes of the last bulk read (so
`m_sourceBufferSize = sourceBuffer.length`); `m_offset` is the read cursor;
`dctx` the decoder session (`m_context`); `readCalls` counts the
`m_source.read` invocations performed. -/
structure input_buffer (σ : Type) where
  srcCap : Nat
  destCap : Nat
  upstream : List Nat
  sourceBuffer : List Nat
  m_offset : Nat
  dctx : σ
  readCalls : Nat
deriving DecidableEq

/-- Observable events of one `underflow` run: a bulk read from the upstream
source (`m_source.read`, with the requested and actually delivered counts)
or a decoder call (with the offered input span and output capacity). -/
inductive UEvent where
  | sourceRead (requested got : Nat)
  | decompressCall (input : List Nat) (destCap : Nat)
deriving DecidableEq

/-- Outcome of `input_buffer::underflow`: end-of-stream (`traits_type::eof`),
a nonempty produced view (installed by `setg`), a thrown error, or fuel
exhaustion (the pull loop did not finish — models divergence). -/
inductive UOut (σ : Type) where
  | eof (s : input_buffer σ)
  | bytes (produced : List Nat) (s : input_buffer σ)
  | err (msg : String)
  | spin
deriving DecidableEq

/-- One iteration of the `underflow` pull loop after the refill decision:
end-of-stream check (`m_sourceBufferSize == 0`), then `LZ4F_decompress` on
the unconsumed region `sourceBuffer[m_offset:]`; advance `m_offset` by the
consumed count; loop (`rec`) while nothing was produced. -/
def underflowBody {σ : Type} (D : DecompressFn σ)
    (rec : input_buffer σ → List UEvent × UOut σ) (s1 : input_buffer σ) :
    List UEvent × UOut σ :=
  if s1.sourceBuffer.length = 0 then ([], UOut.eof s1)
  else
    let region := s1.sourceBuffer.drop s1.m_offset
    match D s1.dctx region s1.destCap with
    | .error m =>
      ([UEvent.decompressCall region s1.destCap], UOut.err ("LZ4 decompression failed: " ++ m))
    | .ok (c, o, d') =>
      let s2 : input_buffer σ := { s1 with m_offset := s1.m_offset + c, dctx := d' }
      if o = [] then
        let r := rec s2
        (UEvent.decompressCall region s1.destCap :: r.1, r.2)
      else ([UEvent.decompressCall region s1.destCap], UOut.bytes o s2)

/-- `input_buffer::underflow` with fuel bounding the number of loop
iterations: when `m_offset == m_sourceBufferSize` the buffer is refilled by
one bulk read of up to `srcCap` bytes (`m_source.read`; a short read just
delivers what is left), then the loop body runs. -/
def underflow {σ : Type} (D : DecompressFn σ) : Nat → input_buffer σ → List UEvent × UOut σ
  | 0, _ => ([], UOut.spin)
  | fuel + 1, s =>
    if s.m_offset = s.sourceBuffer.length then
      let got := min s.srcCap s.upstream.length
      let s1 : input_buffer σ :=
        { s with sourceBuffer := s.upstream.take got, m_offset := 0,
                 upstream := s.upstream.drop got, readCalls := s.readCalls + 1 }
      let r := underflowBody D (underflow D fuel) s1
      (UEvent.sourceRead s.srcCap got :: r.1, r.2)
    else underflowBody D (underflow D fuel) s

/-- Draining the decompressing stream: repeated `underflow` calls
(each produced view is fully consumed by the caller before the next
underflow, as `std::istream` does), concatenating the produced views until
end-of-stream.  `none` on error or fuel exhaustion. -/
def readAll {σ : Type} (D : DecompressFn σ) : Nat → Nat → input_buffer σ → Option (List Nat)
  | _, 0, _ => none
  | uFuel, n + 1, s =>
    match (underflow D uFuel s).2 with
    | UOut.eof _ => some []
    | UOut.bytes o s' => (readAll D uFuel n s').map (fun t => o ++ t)
    | _ => none

/-- The `input_buffer` constructor after a successful
`LZ4F_createDecompressionContext`: empty get area (`setg` on an empty
range), `m_offset = 0`, `m_sourceBufferSize = 0`, upstream still holding
the whole byte stream `B`. -/
def initInput {σ : Type} (d0 : σ) (srcCap destCap : Nat) (B : List Nat) : input_buffer σ :=
  { srcCap := srcCap, destCap := destCap, upstream := B, sourceBuffer := [],
    m_offset := 0, dctx := d0, readCalls := 0 }

/-- Full source-side lifecycle: construct over the byte stream `B` and
drain it.  The fuel values are sufficient for every decoder that makes
progress (proved below for the model decoder). -/
def decompressStream {σ : Type} (D : DecompressFn σ) (d0 : σ) (srcCap destCap : Nat)
    (B : List Nat) : Option (List Nat) :=
  readAll D (B.length + 1) (B.length + 2) (initInput d0 srcCap destCap B)

/-- Session state of the model decoder: expecting the header byte, a block
tag, a block length, `n` more data bytes, or finished (footer seen). -/
inductive DecState where
  | start
  | awaitTag
  | awaitLen
  | data (n : Nat)
  | done
deriving DecidableEq

/-- The model decoder collaborator: greedily parses the model framing
(header `0`, blocks `1, len, bytes…`, footer `2`), consuming input until it
is exhausted or the output capacity is reached; like `LZ4F_decompress` it
may consume less than offered (capacity reached) or consume without
producing (framing bytes), and it errors on malformed framing. -/
def modelDecompress : DecState → List Nat → Nat → Except String (Nat × List Nat × DecState)
  | st, [], _ => .ok (0, [], st)
  | DecState.start, b :: rest, cap =>
    if b = 0 then
      match modelDecompress DecState.awaitTag rest cap with
      | .ok (c, o, st') => .ok (c + 1, o, st')
      | .error m => .error m
    else .error "ERROR_frameHeader_incorrect"
  | DecState.awaitTag, b :: rest, cap =>
    if b = 1 then
      match modelDecompress DecState.awaitLen rest cap with
      | .ok (c, o, st') => .ok (c + 1, o, st')
      | .error m => .error m
    else if b = 2 then .ok (1, [], DecState.done)
    else .error "ERROR_blockType_unknown"
  | DecState.awaitLen, b :: rest, cap =>
    if b = 0 then .error "ERROR_blockSize_invalid"
    else
      match modelDecompress (DecState.data b) rest cap with
      | .ok (c, o, st') => .ok (c + 1, o, st')
      | .error m => .error m
  | DecState.data n, b :: rest, cap =>
    if cap = 0 then .ok (0, [], DecState.data n)
    else
      match modelDecompress (if n ≤ 1 then DecState.awaitTag else DecState.data (n - 1))
          rest (cap - 1) with
      | .ok (c, o, st') => .ok (c + 1, b :: o, st')
      | .error m => .error m
  | DecState.done, _ :: _, _ => .ok (0, [], DecState.done)

/-- Reference decode of a whole byte list from a decoder state: the exact
raw bytes the rest of the stream stands for (`none` on malformed framing,
`some` of the decoded bytes otherwise; a stream that stops early decodes to
what it produced so far). -/
def decodeAll : DecState → List Nat → Option (List Nat)
  | _, [] => some []
  | DecState.start, b :: r => if b = 0 then decodeAll DecState.awaitTag r else none
  | DecState.awaitTag, b :: r =>
    if b = 1 then decodeAll DecState.awaitLen r
    else if b = 2 then (if r = [] then some [] else none)
    else none
  | DecState.awaitLen, b :: r =>
    if b = 0 then none else decodeAll (DecState.data b) r
  | DecState.data n, b :: r =>
    (decodeAll (if n ≤ 1 then DecState.awaitTag else DecState.data (n - 1)) r).map
      (fun t => b :: t)
  | DecState.done, _ :: _ => none

/-- The loop measure of the pull loop: unconsumed buffered bytes plus
bytes still available upstream. -/
def muIn {σ : Type} (s : input_buffer σ) : Nat :=
  (s.sourceBuffer.length - s.m_offset) + s.upstream.length

/-- A decoder collaborator that consumes nothing and produces nothing
(never errors): a zero-progress decoder the §6 contract does not rule
out. -/
def stuckDecoder : DecompressFn Unit := fun st _ _ => .ok (0, [], st)

/-- A source-adapter state with one unconsumed buffered byte. -/
def stuckState : input_buffer Unit :=
  { srcCap := 4, destCap := 4, upstream := [], sourceBuffer := [9], m_offset := 0,
    dctx := (), readCalls := 0 }

/-- A concrete adapter state on which `Close` has already completed. -/
def closedBuf : output_buffer (List (List Nat)) :=
  { cap := 4, sourceBuffer := [], sink := [0, 2], ctx := [], closed := true, frees := 1 }

/-- An encoder whose `compressBegin` reports an error indicator. -/
def badBeginEncoder : Encoder Unit :=
  { compressBegin := fun _ => .error "ERROR_GENERIC"
  , compressUpdate := fun st _ => .ok ([], st)
  , compressEnd := fun st => .ok ([], st) }

/-- A decoder mock that reports an error indicator on every call. -/
def errDecoder : DecompressFn Unit := fun _ _ _ => .error "ERROR_GENERIC"

/-- A source-adapter state mid-stream: one unconsumed buffered byte. -/
def midState : input_buffer Unit :=
  { srcCap := 4, destCap := 4, upstream := [], sourceBuffer := [9, 9], m_offset := 1,
    dctx := (), readCalls := 1 }

/-- A decoder mock that consumes one byte and produces nothing. -/
def oneByteDecoder : DecompressFn Unit := fun _ _ _ => .ok (1, [], ())

/-- A source-adapter state with three unconsumed buffered bytes. -/
def threeByteState : input_buffer Unit :=
  { srcCap := 4, destCap := 4, upstream := [], sourceBuffer := [9, 9, 9], m_offset := 0,
    dctx := (), readCalls := 1 }

/-- The post-end-of-stream state: the first `underflow` on an empty source
ends here (zero-byte read, empty unconsumed region, end-of-stream
declared). -/
def eosState : input_buffer DecState :=
  { srcCap := 4, destCap := 4, upstream := [], sourceBuffer := [], m_offset := 0,
    dctx := DecState.start, readCalls := 1 }

/-- A decoder collaborator that consumes its whole input and produces
nothing: it satisfies the progress condition of `c10_progress_termination`. -/
def dropDecoder : DecompressFn Unit := fun st inp _ => .ok (inp.length, [], st)

example : compressStream modelEncoder 3 [] [7, 8, 9, 10] =
    .ok [0, 1, 3, 7, 8, 9, 1, 1, 10, 2] := rfl

example : compressStream modelEncoder 3 [] [] = .ok [0, 2] := rfl

example : decompressStream modelDecompress DecState.start 4 4 [0, 1, 3, 7, 8, 9, 1, 1, 10, 2] =
    some [7, 8, 9, 10] := by decide

example : decompressStream modelDecompress DecState.start 4 4 [0, 2] = some [] := by decide

example : decompressStream modelDecompress DecState.start 1 1 [0, 1, 3, 7, 8, 9, 1, 1, 10, 2] =
    some [7, 8, 9, 10] := by decide

theorem stuckDecoder_step (fuel : Nat) :
    (underflow stuckDecoder (fuel + 1) stuckState).2 =
      (underflow stuckDecoder fuel stuckState).2 := rfl

/-- C2: construction of the compressing sink adapter writes exactly the
codec's frame header bytes to the sink, before any raw byte is accepted
(the accumulation buffer is empty), for every encoder whose
`compressBegin` succeeds — independently of whether anything is written
later. -/
theorem c2_header_first {ε : Type} (E : Encoder ε) (cap : Nat) (c0 c1 : ε) (hdr : List Nat)
    (h : E.compressBegin c0 = .ok (hdr, c1)) :
    constructOutput E cap c0 =
      (.ok { cap := cap, sourceBuffer := [], sink := hdr, ctx := c1,
             closed := false, frees := 0 }, 0) := by
  simp [constructOutput, output_buffer.WriteHeader, h]

theorem c2_header_first_witness :
    constructOutput modelEncoder 4 [] =
      (.ok { cap := 4, sourceBuffer := [], sink := [0], ctx := [],
             closed := false, frees := 0 }, 0) :=
  c2_header_first modelEncoder 4 [] [] [0] rfl

/-- C3: `Close` is idempotent.  On a not-yet-closed adapter whose encoder
flush and footer succeed, the first call flushes, appends exactly the
footer bytes to the sink, releases the encoder session (one
`LZ4F_freeCompressionContext`), and marks the adapter closed; a second
call (e.g. the destructor's) returns the same state unchanged with no
error, so the footer reaches the sink exactly once across any sequence of
`Close` calls. -/
theorem c3_close_idempotent {ε : Type} (E : Encoder ε) (b : output_buffer ε)
    (u f : List Nat) (c1 c2 : ε)
    (hb : b.closed = false)
    (hu : E.compressUpdate b.ctx b.sourceBuffer = .ok (u, c1))
    (hf : E.compressEnd c1 = .ok (f, c2)) :
    ∃ b1, output_buffer.Close E b = .ok b1 ∧
      b1.sink = b.sink ++ u ++ f ∧ b1.closed = true ∧
      b1.frees = b.frees + 1 ∧ b1.sourceBuffer = [] ∧
      output_buffer.Close E b1 = .ok b1 := by
  refine ⟨{ b with
            sourceBuffer := [],
            ctx := c2,
            sink := b.sink ++ u ++ f,
            closed := true,
            frees := b.frees + 1 }, ?_, rfl, rfl, rfl, rfl, ?_⟩
  · simp [output_buffer.Close, output_buffer.sync, output_buffer.CompressAndWrite,
      output_buffer.WriteFooter, hb, hu, hf, List.append_assoc]
  · simp [output_buffer.Close]

theorem c3_close_idempotent_witness :
    ∃ b1, output_buffer.Close modelEncoder
        { cap := 4, sourceBuffer := [5, 6], sink := [0], ctx := [],
          closed := false, frees := 0 } = .ok b1 ∧
      b1.sink = [0] ++ [1, 2, 5, 6] ++ [2] ∧ b1.closed = true ∧
      b1.frees = 0 + 1 ∧ b1.sourceBuffer = [] ∧
      output_buffer.Close modelEncoder b1 = .ok b1 :=
  c3_close_idempotent modelEncoder
    { cap := 4, sourceBuffer := [5, 6], sink := [0], ctx := [],
      closed := false, frees := 0 }
    [1, 2, 5, 6] [2] [[5, 6]] [[5, 6]] rfl rfl rfl

/-- C4 counterexample: on a closed adapter a plain write does *not* fail —
`sputc` with room in the put area stores the byte directly and never
reaches the `assert(!m_closed)` in `CompressAndWrite`, so the write
after close succeeds silently. -/
theorem c4_counterexample :
    closedBuf.closed = true ∧
    output_buffer.sputc modelEncoder closedBuf 9 =
      .ok { closedBuf with sourceBuffer := [9] } :=
  ⟨rfl, rfl⟩

/-- C4 (amended): after `Close` has completed, an explicit flush fails
fatally (the modelled `assert(!m_closed)`), and a write fails fatally only
when it triggers a flush (put area already at its reserved capacity);
a write that merely appends to a non-full buffer succeeds silently. -/
theorem c4_write_after_close_amended {ε : Type} (E : Encoder ε)
    (b : output_buffer ε) (ch : Nat) (hb : b.closed = true) :
    output_buffer.sync E b = .error "assertion failed: !m_closed" ∧
    (b.cap - 1 ≤ b.sourceBuffer.length →
      output_buffer.sputc E b ch = .error "assertion failed: !m_closed") ∧
    (b.sourceBuffer.length < b.cap - 1 →
      output_buffer.sputc E b ch = .ok { b with sourceBuffer := b.sourceBuffer ++ [ch] }) := by
  refine ⟨?_, ?_, ?_⟩
  · simp [output_buffer.sync, output_buffer.CompressAndWrite, hb]
  · intro hfull
    simp [output_buffer.sputc, output_buffer.overflow, output_buffer.CompressAndWrite,
      hb, Nat.not_lt.mpr hfull]
  · intro hroom
    simp [output_buffer.sputc, hroom]

theorem c4_write_after_close_amended_witness :
    output_buffer.sync modelEncoder closedBuf = .error "assertion failed: !m_closed" ∧
    (closedBuf.cap - 1 ≤ closedBuf.sourceBuffer.length →
      output_buffer.sputc modelEncoder closedBuf 9 = .error "assertion failed: !m_closed") ∧
    (closedBuf.sourceBuffer.length < closedBuf.cap - 1 →
      output_buffer.sputc modelEncoder closedBuf 9 =
        .ok { closedBuf with sourceBuffer := closedBuf.sourceBuffer ++ [9] }) :=
  c4_write_after_close_amended modelEncoder closedBuf 9 rfl

/-- C9: the code leaks the encoder session when construction fails partway.
With a codec whose `LZ4F_compressBegin` reports an error after the
compression context was successfully created, the `output_buffer`
constructor throws and performs zero `LZ4F_freeCompressionContext` calls
(second component), violating the release-exactly-once requirement. -/
theorem c9_construction_leak :
    constructOutput badBeginEncoder 8 () =
      (.error "Failed to start LZ4 compression: ERROR_GENERIC", 0) := rfl

/-- While the pending bytes stay below the reserved capacity `cap - 1`,
writing only appends to the accumulation buffer: no encoder call, no sink
write, no state change at all beyond the buffer. -/
theorem writeBytes_noFlush {ε : Type} (E : Encoder ε) :
    ∀ (S : List Nat) (b : output_buffer ε),
      b.sourceBuffer.length + S.length ≤ b.cap - 1 →
      writeBytes E b S = .ok { b with sourceBuffer := b.sourceBuffer ++ S } := by
  intro S
  induction S with
  | nil => intro b _; simp [writeBytes]
  | cons ch rest ih =>
    intro b hle
    have hroom : b.sourceBuffer.length < b.cap - 1 := by
      simp only [List.length_cons] at hle
      omega
    have hstep : output_buffer.sputc E b ch =
        .ok { b with sourceBuffer := b.sourceBuffer ++ [ch] } := by
      simp [output_buffer.sputc, hroom]
    have hrest := ih { b with sourceBuffer := b.sourceBuffer ++ [ch] }
      (by
        simp only [List.length_append, List.length_cons, List.length_nil] at hle ⊢
        omega)
    simp only [writeBytes, hstep, hrest]
    simp [List.append_assoc]

/-- C8: with raw-buffer capacity `cap`, writing exactly `cap - 1` bytes
triggers no flush — the recording encoder session shows no update call and
the sink still holds only the header — while one further byte triggers
exactly one flush whose input span is the full `cap` buffered bytes, the
overflow-triggering byte included. -/
theorem c8_boundary_flush (cap : Nat) (S : List Nat) (ch : Nat)
    (hcap : 1 ≤ cap) (hlen : S.length = cap - 1) :
    ∃ b0 b1 b2,
      constructOutput modelEncoder cap [] = (.ok b0, 0) ∧
      writeBytes modelEncoder b0 S = .ok b1 ∧
      b1.ctx = [] ∧ b1.sink = b0.sink ∧ b1.sourceBuffer = S ∧
      output_buffer.sputc modelEncoder b1 ch = .ok b2 ∧
      b2.ctx = [S ++ [ch]] ∧ b2.sourceBuffer = [] ∧
      b2.sink = b0.sink ++ modelUpdate (S ++ [ch]) := by
  refine ⟨{ cap := cap, sourceBuffer := [], sink := [0], ctx := [],
            closed := false, frees := 0 },
    { cap := cap, sourceBuffer := S, sink := [0], ctx := [],
      closed := false, frees := 0 },
    { cap := cap, sourceBuffer := [], sink := [0] ++ modelUpdate (S ++ [ch]),
      ctx := [S ++ [ch]], closed := false, frees := 0 },
    rfl, ?_, rfl, rfl, rfl, ?_, rfl, rfl, rfl⟩
  · have h := writeBytes_noFlush modelEncoder S
      { cap := cap, sourceBuffer := [], sink := [0], ctx := ([] : List (List Nat)),
        closed := false, frees := 0 } (by simp [hlen])
    simpa using h
  · have hfull : ¬ S.length < cap - 1 := by omega
    simp [output_buffer.sputc, output_buffer.overflow, output_buffer.CompressAndWrite,
      modelEncoder, hfull]

theorem underflow_noRefill {σ : Type} (D : DecompressFn σ) (fuel : Nat)
    (s : input_buffer σ) (h : s.m_offset ≠ s.sourceBuffer.length) :
    underflow D (fuel + 1) s = underflowBody D (underflow D fuel) s := by
  simp [underflow, h]

theorem underflowBody_okEmpty {σ : Type} (D : DecompressFn σ)
    (rec : input_buffer σ → List UEvent × UOut σ) (s1 : input_buffer σ)
    (c : Nat) (d' : σ)
    (hlen : s1.sourceBuffer.length ≠ 0)
    (hD : D s1.dctx (s1.sourceBuffer.drop s1.m_offset) s1.destCap = .ok (c, [], d')) :
    underflowBody D rec s1 =
      (UEvent.decompressCall (s1.sourceBuffer.drop s1.m_offset) s1.destCap ::
        (rec { s1 with m_offset := s1.m_offset + c, dctx := d' }).1,
       (rec { s1 with m_offset := s1.m_offset + c, dctx := d' }).2) := by
  simp [underflowBody, hlen, hD]

theorem underflowBody_okBytes {σ : Type} (D : DecompressFn σ)
    (rec : input_buffer σ → List UEvent × UOut σ) (s1 : input_buffer σ)
    (c : Nat) (o : List Nat) (d' : σ)
    (hlen : s1.sourceBuffer.length ≠ 0)
    (hD : D s1.dctx (s1.sourceBuffer.drop s1.m_offset) s1.destCap = .ok (c, o, d'))
    (ho : o ≠ []) :
    underflowBody D rec s1 =
      ([UEvent.decompressCall (s1.sourceBuffer.drop s1.m_offset) s1.destCap],
       UOut.bytes o { s1 with m_offset := s1.m_offset + c, dctx := d' }) := by
  simp [underflowBody, hlen, hD, ho]

/-- C5: codec-operation errors are fatal and carry the codec's message.
Decoder side: when the adapter's next `LZ4F_decompress` call reports an
error, `underflow` raises `"LZ4 decompression failed: "` plus the codec's
message (an error result, not an end-of-stream).  Encoder side: a
`compressBegin` error aborts construction, a `compressUpdate` error aborts
the flush, and a `compressEnd` error aborts `Close`, each with the
corresponding codec message. -/
theorem c5_codec_error_fatal :
    (∀ (σ : Type) (D : DecompressFn σ) (s : input_buffer σ) (m : String) (fuel : Nat),
      s.m_offset < s.sourceBuffer.length →
      D s.dctx (s.sourceBuffer.drop s.m_offset) s.destCap = .error m →
      (underflow D (fuel + 1) s).2 = UOut.err ("LZ4 decompression failed: " ++ m)) ∧
    (∀ (ε : Type) (E : Encoder ε) (cap : Nat) (c0 : ε) (m : String),
      E.compressBegin c0 = .error m →
      constructOutput E cap c0 = (.error ("Failed to start LZ4 compression: " ++ m), 0)) ∧
    (∀ (ε : Type) (E : Encoder ε) (b : output_buffer ε) (m : String),
      b.closed = false →
      E.compressUpdate b.ctx b.sourceBuffer = .error m →
      output_buffer.sync E b = .error ("LZ4 compression failed: " ++ m)) ∧
    (∀ (ε : Type) (E : Encoder ε) (b : output_buffer ε) (u : List Nat) (c1 : ε) (m : String),
      b.closed = false →
      E.compressUpdate b.ctx b.sourceBuffer = .ok (u, c1) →
      E.compressEnd c1 = .error m →
      output_buffer.Close E b = .error ("Failed to end LZ4 compression: " ++ m)) := by
  refine ⟨?_, ?_, ?_, ?_⟩
  · intro σ D s m fuel hoff hD
    rw [underflow_noRefill D fuel s (Nat.ne_of_lt hoff)]
    have hlen : s.sourceBuffer.length ≠ 0 := Nat.not_eq_zero_of_lt hoff
    simp [underflowBody, hD, hlen]
  · intro ε E cap c0 m h
    simp [constructOutput, output_buffer.WriteHeader, h]
  · intro ε E b m hb hu
    simp [output_buffer.sync, output_buffer.CompressAndWrite, hb, hu]
  · intro ε E b u c1 m hb hu hf
    simp [output_buffer.Close, output_buffer.sync, output_buffer.CompressAndWrite,
      output_buffer.WriteFooter, hb, hu, hf]

theorem c5_codec_error_fatal_witness :
    (underflow errDecoder 3 midState).2 =
      UOut.err ("LZ4 decompression failed: " ++ "ERROR_GENERIC") ∧
    constructOutput badBeginEncoder 4 () =
      (.error ("Failed to start LZ4 compression: " ++ "ERROR_GENERIC"), 0) :=
  ⟨c5_codec_error_fatal.1 Unit errDecoder midState "ERROR_GENERIC" 2 (by decide) rfl,
   c5_codec_error_fatal.2.1 Unit badBeginEncoder 4 () "ERROR_GENERIC" rfl⟩

/-- C7: partial consumption.  When a decoder call consumes `c` of the
offered bytes (fewer than offered) and produces nothing, the very next
event is another decoder call on the remaining unconsumed bytes of the
same buffered region — `m_offset` advanced by exactly `c`, the buffer
(read limit) unchanged — with no upstream read in between. -/
theorem c7_partial_consumption {σ : Type} (D : DecompressFn σ) (s : input_buffer σ)
    (c : Nat) (d' : σ) (fuel : Nat)
    (hoff : s.m_offset < s.sourceBuffer.length)
    (hD : D s.dctx (s.sourceBuffer.drop s.m_offset) s.destCap = .ok (c, [], d'))
    (hc : c < s.sourceBuffer.length - s.m_offset) :
    ∃ evs, (underflow D (fuel + 2) s).1 =
      UEvent.decompressCall (s.sourceBuffer.drop s.m_offset) s.destCap ::
      UEvent.decompressCall (s.sourceBuffer.drop (s.m_offset + c)) s.destCap :: evs ∧
      s.sourceBuffer.drop (s.m_offset + c) = (s.sourceBuffer.drop s.m_offset).drop c := by
  have hoff2 : s.m_offset + c < s.sourceBuffer.length := by omega
  rw [underflow_noRefill D (fuel + 1) s (Nat.ne_of_lt hoff)]
  rw [underflowBody_okEmpty D _ s c d' (Nat.not_eq_zero_of_lt hoff) hD]
  set s2 : input_buffer σ := { s with m_offset := s.m_offset + c, dctx := d' } with hs2
  have h2 : underflow D (fuel + 1) s2 = underflowBody D (underflow D fuel) s2 :=
    underflow_noRefill D fuel s2 (by
      show s.m_offset + c ≠ s.sourceBuffer.length
      omega)
  have hlen2 : s2.sourceBuffer.length ≠ 0 := Nat.not_eq_zero_of_lt hoff
  have hdrop : s.sourceBuffer.drop (s.m_offset + c) = (s.sourceBuffer.drop s.m_offset).drop c := by
    rw [List.drop_drop, Nat.add_comm]
  rcases hD2 : D s2.dctx (s2.sourceBuffer.drop s2.m_offset) s2.destCap with m | ⟨c2, o2, d2⟩
  · refine ⟨[], ?_, hdrop⟩
    rw [h2]
    simp [underflowBody, hlen2, hD2, hs2]
  · by_cases ho2 : o2 = []
    · subst ho2
      refine ⟨(underflow D fuel { s2 with m_offset := s2.m_offset + c2, dctx := d2 }).1, ?_, hdrop⟩
      rw [h2, underflowBody_okEmpty D _ s2 c2 d2 hlen2 hD2]
    · refine ⟨[], ?_, hdrop⟩
      rw [h2, underflowBody_okBytes D _ s2 c2 o2 d2 hlen2 hD2 ho2]

theorem c7_partial_consumption_witness :
    ∃ evs, (underflow oneByteDecoder 3 threeByteState).1 =
      UEvent.decompressCall [9, 9, 9] 4 :: UEvent.decompressCall [9, 9] 4 :: evs ∧
      ([9, 9, 9] : List Nat).drop (0 + 1) = (([9, 9, 9] : List Nat).drop 0).drop 1 := by
  have h := c7_partial_consumption oneByteDecoder threeByteState 1 () 1
    (by decide) rfl (by decide)
  simpa [threeByteState] using h

/-- C6 counterexample: after end-of-stream has been declared (first
conjunct: the initial `underflow` on an exhausted source returns
end-of-stream, leaving `eosState`), the *next* read does perform another
upstream read — its event trace is exactly one more `m_source.read`
(second conjunct), contradicting "without performing any further read on
the upstream source"; it does still return end-of-stream (third
conjunct). -/
theorem c6_counterexample :
    (underflow modelDecompress 5 (initInput DecState.start 4 4 [])).2 = UOut.eof eosState ∧
    (underflow modelDecompress 5 eosState).1 = [UEvent.sourceRead 4 0] ∧
    (underflow modelDecompress 5 eosState).2 = UOut.eof { eosState with readCalls := 2 } :=
  ⟨rfl, rfl, rfl⟩

/-- C6 (amended): once end-of-stream has been declared (upstream exhausted
and the unconsumed region empty), every subsequent read returns
end-of-stream again — but only after performing one redundant zero-byte
bulk read on the upstream source each time. -/
theorem c6_eos_amended {σ : Type} (D : DecompressFn σ) (s : input_buffer σ) (fuel : Nat)
    (hup : s.upstream = []) (hoff : s.m_offset = s.sourceBuffer.length) :
    underflow D (fuel + 1) s =
      ([UEvent.sourceRead s.srcCap 0],
       UOut.eof { s with
                  sourceBuffer := [],
                  m_offset := 0,
                  upstream := [],
                  readCalls := s.readCalls + 1 }) := by
  simp [underflow, underflowBody, hoff, hup]

theorem c6_eos_amended_witness :
    underflow modelDecompress 5 eosState =
      ([UEvent.sourceRead eosState.srcCap 0],
       UOut.eof { eosState with
                  sourceBuffer := [],
                  m_offset := 0,
                  upstream := [],
                  readCalls := eosState.readCalls + 1 }) :=
  c6_eos_amended modelDecompress eosState 4 rfl rfl

/-- One loop iteration makes progress: for a decoder that never over-consumes
and always consumes or produces on nonempty input, the loop body does not
exhaust its fuel when the measure is within the remaining fuel. -/
theorem underflowBody_no_spin {σ : Type} (D : DecompressFn σ) (n : Nat)
    (s1 : input_buffer σ)
    (hcons : ∀ (st : σ) (inp : List Nat) (cap c : Nat) (o : List Nat) (d' : σ),
      D st inp cap = .ok (c, o, d') → c ≤ inp.length)
    (hprog : ∀ (st : σ) (inp : List Nat) (cap c : Nat) (o : List Nat) (d' : σ),
      inp ≠ [] → 1 ≤ cap → D st inp cap = .ok (c, o, d') → 1 ≤ c ∨ o ≠ [])
    (hinv : s1.m_offset < s1.sourceBuffer.length ∨ s1.sourceBuffer.length = 0)
    (hdest : 1 ≤ s1.destCap)
    (ih : ∀ s' : input_buffer σ, s'.m_offset ≤ s'.sourceBuffer.length →
      1 ≤ s'.destCap → muIn s' < n → (underflow D n s').2 ≠ UOut.spin)
    (hmu : muIn s1 ≤ n) :
    (underflowBody D (underflow D n) s1).2 ≠ UOut.spin := by
  by_cases hlen : s1.sourceBuffer.length = 0
  · simp [underflowBody, hlen]
  · have hoff : s1.m_offset < s1.sourceBuffer.length := by
      rcases hinv with h | h
      · exact h
      · exact absurd h hlen
    rw [underflowBody]
    simp only [hlen, if_false]
    rcases hD : D s1.dctx (s1.sourceBuffer.drop s1.m_offset) s1.destCap
      with m | ⟨c, o, d'⟩
    · simp
    · have hregne : s1.sourceBuffer.drop s1.m_offset ≠ [] := by
        intro hnil
        have := congrArg List.length hnil
        simp only [List.length_drop, List.length_nil] at this
        omega
      by_cases ho : o = []
      · subst ho
        have hc : 1 ≤ c := by
          rcases hprog s1.dctx _ s1.destCap c [] d' hregne hdest hD with h | h
          · exact h
          · exact absurd rfl h
        have hcle : c ≤ s1.sourceBuffer.length - s1.m_offset := by
          have := hcons s1.dctx _ s1.destCap c [] d' hD
          rwa [List.length_drop] at this
        simp only [if_true]
        have happ : (underflow D n
            { s1 with m_offset := s1.m_offset + c, dctx := d' }).2 ≠ UOut.spin := by
          apply ih
          · show s1.m_offset + c ≤ s1.sourceBuffer.length
            omega
          · exact hdest
          · show (s1.sourceBuffer.length - (s1.m_offset + c)) + s1.upstream.length < n
            have : muIn s1 = (s1.sourceBuffer.length - s1.m_offset) + s1.upstream.length := rfl
            omega
        simpa using happ
      · simp [ho]

theorem frames_append (xs ys : List (List Nat)) :
    frames (xs ++ ys) = frames xs ++ frames ys := by
  induction xs with
  | nil => rfl
  | cons bl rest ih => simp [frames, ih]

/-- Sink-side invariant: writing `S` byte-by-byte appends the framed
encodings of the overflow-flushed blocks to the sink and leaves the
remainder pending; the flushed blocks plus the pending bytes are exactly
the old pending bytes followed by `S`, every flushed block is nonempty,
and the pending bytes stay within the reserved capacity. -/
theorem writeBytes_blocks :
    ∀ (S : List Nat) (b : output_buffer (List (List Nat))),
      b.closed = false → b.sourceBuffer.length ≤ b.cap - 1 →
      ∃ (blocks : List (List Nat)) (b' : output_buffer (List (List Nat))),
        writeBytes modelEncoder b S = .ok b' ∧
        b'.cap = b.cap ∧ b'.closed = false ∧
        b'.sink = b.sink ++ frames blocks ∧
        b'.sourceBuffer.length ≤ b.cap - 1 ∧
        blocks.flatten ++ b'.sourceBuffer = b.sourceBuffer ++ S ∧
        ∀ bl ∈ blocks, bl ≠ [] := by
  intro S
  induction S with
  | nil =>
    intro b hcl hle
    exact ⟨[], b, rfl, rfl, hcl, by simp [frames], hle, by simp, by simp⟩
  | cons ch rest ih =>
    intro b hcl hle
    by_cases hroom : b.sourceBuffer.length < b.cap - 1
    · have hstep : output_buffer.sputc modelEncoder b ch =
          .ok { b with sourceBuffer := b.sourceBuffer ++ [ch] } := by
        simp [output_buffer.sputc, hroom]
      obtain ⟨blocks, b', hw, hbcap, hbcl, hsink, hblen, hjoin, hne⟩ :=
        ih { b with sourceBuffer := b.sourceBuffer ++ [ch] } hcl
          (by simp only [List.length_append, List.length_cons, List.length_nil]; omega)
      refine ⟨blocks, b', ?_, hbcap, hbcl, hsink, hblen, ?_, hne⟩
      · simp only [writeBytes, hstep, hw]
      · rw [hjoin]
        simp
    · have hstep : output_buffer.sputc modelEncoder b ch =
          .ok { b with
                sourceBuffer := [],
                ctx := b.ctx ++ [b.sourceBuffer ++ [ch]],
                sink := b.sink ++ modelUpdate (b.sourceBuffer ++ [ch]) } := by
        simp [output_buffer.sputc, output_buffer.overflow, output_buffer.CompressAndWrite,
          modelEncoder, hroom, hcl]
      obtain ⟨blocks, b', hw, hbcap, hbcl, hsink, hblen, hjoin, hne⟩ :=
        ih { b with
             sourceBuffer := [],
             ctx := b.ctx ++ [b.sourceBuffer ++ [ch]],
             sink := b.sink ++ modelUpdate (b.sourceBuffer ++ [ch]) } hcl (by simp)
      have hblne : b.sourceBuffer ++ [ch] ≠ [] := by simp
      refine ⟨(b.sourceBuffer ++ [ch]) :: blocks, b', ?_, hbcap, hbcl, ?_, hblen, ?_, ?_⟩
      · simp only [writeBytes, hstep, hw]
      · rw [hsink]
        simp only [frames, modelUpdate, hblne, if_false]
        simp [List.append_assoc]
      · have hj : blocks.flatten ++ b'.sourceBuffer = rest := by simpa using hjoin
        calc ((b.sourceBuffer ++ [ch]) :: blocks).flatten ++ b'.sourceBuffer
            = (b.sourceBuffer ++ [ch]) ++ (blocks.flatten ++ b'.sourceBuffer) := by
              simp [List.flatten_cons, List.append_assoc]
          _ = (b.sourceBuffer ++ [ch]) ++ rest := by rw [hj]
          _ = b.sourceBuffer ++ ch :: rest := by simp
      · intro bl hbl
        rcases List.mem_cons.mp hbl with h | h
        · rw [h]; exact hblne
        · exact hne bl h

/-- Closing a not-yet-closed adapter over the model encoder appends the
final flush of the pending bytes and the footer byte to the sink. -/
theorem Close_model (b : output_buffer (List (List Nat))) (hb : b.closed = false) :
    ∃ b', output_buffer.Close modelEncoder b = .ok b' ∧
      b'.sink = b.sink ++ modelUpdate b.sourceBuffer ++ [2] := by
  refine ⟨{ b with
            sourceBuffer := [],
            ctx := b.ctx ++ [b.sourceBuffer],
            sink := b.sink ++ modelUpdate b.sourceBuffer ++ [2],
            closed := true,
            frees := b.frees + 1 }, ?_, rfl⟩
  simp [output_buffer.Close, output_buffer.sync, output_buffer.CompressAndWrite,
    output_buffer.WriteFooter, modelEncoder, hb, List.append_assoc]

/-- The whole sink-side lifecycle over the model encoder: header byte,
framed nonempty blocks that concatenate to `S`, footer byte. -/
theorem compressStream_blocks (cap : Nat) (S : List Nat) :
    ∃ blocks, compressStream modelEncoder cap [] S = .ok (0 :: (frames blocks ++ [2])) ∧
      blocks.flatten = S ∧ ∀ bl ∈ blocks, bl ≠ [] := by
  have hb0 : constructOutput modelEncoder cap [] =
      (.ok { cap := cap, sourceBuffer := [], sink := [0], ctx := [],
             closed := false, frees := 0 }, 0) := rfl
  obtain ⟨blocks1, b1, hw, hbcap, hbcl, hsink, hblen, hjoin, hne⟩ :=
    writeBytes_blocks S
      { cap := cap, sourceBuffer := [], sink := [0], ctx := [], closed := false, frees := 0 }
      rfl (by simp)
  obtain ⟨b2, hclose, hsink2⟩ := Close_model b1 hbcl
  simp only [List.nil_append] at hjoin
  by_cases hpend : b1.sourceBuffer = []
  · refine ⟨blocks1, ?_, ?_, hne⟩
    · simp only [compressStream, hb0, hw, hclose, hsink2, hsink, hpend, modelUpdate,
        if_true]
      simp
    · rw [← hjoin, hpend]
      simp
  · refine ⟨blocks1 ++ [b1.sourceBuffer], ?_, ?_, ?_⟩
    · simp only [compressStream, hb0, hw, hclose, hsink2, hsink, frames_append]
      simp only [frames, modelUpdate, hpend, if_false]
      simp [List.append_assoc]
    · rw [List.flatten_append, ← hjoin]
      simp
    · intro bl hbl
      rcases List.mem_append.mp hbl with h | h
      · exact hne bl h
      · rw [List.mem_singleton.mp h]
        exact hpend

theorem modelDecompress_nil (st : DecState) (cap : Nat) :
    modelDecompress st [] cap = .ok (0, [], st) := by
  cases st <;> rfl

theorem decodeAll_data_step (n b : Nat) (r : List Nat) :
    decodeAll (DecState.data n) (b :: r) =
      (decodeAll (if n ≤ 1 then DecState.awaitTag else DecState.data (n - 1)) r).map
        (fun u => b :: u) := rfl

theorem decodeAll_data (t : List Nat) :
    ∀ (x : Nat) (rest : List Nat),
      decodeAll (DecState.data (x :: t).length) ((x :: t) ++ rest) =
        (decodeAll DecState.awaitTag rest).map (fun u => (x :: t) ++ u) := by
  induction t with
  | nil =>
    intro x rest
    show decodeAll (DecState.data 1) (x :: rest) = _
    rw [decodeAll_data_step, if_pos (Nat.le_refl 1)]
    cases decodeAll DecState.awaitTag rest <;> rfl
  | cons y t ih =>
    intro x rest
    have ih2 := ih y rest
    have hgt : ¬ ((y :: t).length + 1 ≤ 1) := by
      simp only [List.length_cons]
      omega
    show decodeAll (DecState.data ((y :: t).length + 1)) (x :: ((y :: t) ++ rest)) =
      Option.map (fun u => (x :: y :: t) ++ u) (decodeAll DecState.awaitTag rest)
    rw [decodeAll_data_step, if_neg hgt, Nat.add_sub_cancel, ih2]
    cases decodeAll DecState.awaitTag rest <;> rfl

/-- Lemma A: the reference decode inverts the model framing — from the
`awaitTag` state, the framed nonempty blocks followed by the footer decode
to the blocks' concatenation. -/
theorem decodeAll_frames :
    ∀ (blocks : List (List Nat)), (∀ bl ∈ blocks, bl ≠ []) →
      decodeAll DecState.awaitTag (frames blocks ++ [2]) = some blocks.flatten := by
  intro blocks
  induction blocks with
  | nil => intro _; rfl
  | cons bl rest ih =>
    intro hne
    have hblne : bl ≠ [] := hne bl (List.mem_cons_self bl rest)
    obtain ⟨x, t, rfl⟩ : ∃ x t, bl = x :: t := by
      cases bl with
      | nil => exact absurd rfl hblne
      | cons x t => exact ⟨x, t, rfl⟩
    have hlen : ¬ ((x :: t).length = 0) := by simp
    show decodeAll DecState.awaitTag
        (1 :: (x :: t).length :: (((x :: t) ++ frames rest) ++ [2])) = _
    rw [List.append_assoc]
    show (if (x :: t).length = 0 then none
      else decodeAll (DecState.data (x :: t).length) ((x :: t) ++ (frames rest ++ [2]))) = _
    rw [if_neg hlen, decodeAll_data t x (frames rest ++ [2]),
      ih (fun b hb => hne b (List.mem_cons_of_mem _ hb))]
    rfl

/-- Lemma B: one `modelDecompress` call against an offered span `P` (with
`Q` still to come), from any state whose full remaining stream decodes to
`out`.  The call succeeds, consumes at most `P`, produces a prefix `o` of
`out` within the output capacity, leaves a state from which the rest
decodes to the remainder, and — on nonempty input with nonzero capacity —
produces something or consumes all of `P`. -/
theorem modelDecompress_spec (Q : List Nat) :
    ∀ (P : List Nat) (st : DecState) (cap : Nat) (out : List Nat),
      decodeAll st (P ++ Q) = some out →
      ∃ c o st' out2,
        modelDecompress st P cap = .ok (c, o, st') ∧
        c ≤ P.length ∧
        out = o ++ out2 ∧
        decodeAll st' (P.drop c ++ Q) = some out2 ∧
        o.length ≤ cap ∧
        (P ≠ [] → 1 ≤ cap → (o ≠ [] ∨ c = P.length)) := by
  intro P
  induction P with
  | nil =>
    intro st cap out h
    exact ⟨0, [], st, out, modelDecompress_nil st cap, Nat.le_refl _, rfl, h, by simp,
      fun hne _ => absurd rfl hne⟩
  | cons b P ih =>
    intro st cap out h
    cases st with
    | start =>
      by_cases hb : b = 0
      · subst hb
        have h2 : decodeAll DecState.awaitTag (P ++ Q) = some out := h
        obtain ⟨c, o, st', out2, h1, hc, hout, hdec, hlen, hprog⟩ :=
          ih DecState.awaitTag cap out h2
        refine ⟨c + 1, o, st', out2, ?_, ?_, hout, hdec, hlen, ?_⟩
        · show (match modelDecompress DecState.awaitTag P cap with
            | .ok (c, o, st') => Except.ok (c + 1, o, st')
            | .error m => Except.error m) = _
          rw [h1]
        · simp only [List.length_cons]
          omega
        · intro _ hcap
          by_cases hPne : P = []
          · right
            subst hPne
            simp only [List.length_nil] at hc
            simp only [List.length_cons, List.length_nil]
            omega
          · rcases hprog hPne hcap with hp | hp
            · exact Or.inl hp
            · right
              simp only [List.length_cons]
              omega
      · exfalso
        have : decodeAll DecState.start (b :: (P ++ Q)) = some out := h
        rw [show decodeAll DecState.start (b :: (P ++ Q)) =
          (if b = 0 then decodeAll DecState.awaitTag (P ++ Q) else none) from rfl,
          if_neg hb] at this
        exact Option.noConfusion this
    | awaitTag =>
      by_cases hb1 : b = 1
      · subst hb1
        have h2 : decodeAll DecState.awaitLen (P ++ Q) = some out := h
        obtain ⟨c, o, st', out2, h1, hc, hout, hdec, hlen, hprog⟩ :=
          ih DecState.awaitLen cap out h2
        refine ⟨c + 1, o, st', out2, ?_, ?_, hout, hdec, hlen, ?_⟩
        · show (match modelDecompress DecState.awaitLen P cap with
            | .ok (c, o, st') => Except.ok (c + 1, o, st')
            | .error m => Except.error m) = _
          rw [h1]
        · simp only [List.length_cons]
          omega
        · intro _ hcap
          by_cases hPne : P = []
          · right
            subst hPne
            simp only [List.length_nil] at hc
            simp only [List.length_cons, List.length_nil]
            omega
          · rcases hprog hPne hcap with hp | hp
            · exact Or.inl hp
            · right
              simp only [List.length_cons]
              omega
      · by_cases hb2 : b = 2
        · subst hb2
          have h2 : (if P ++ Q = [] then some [] else none) = some out := h
          by_cases hPQ : P ++ Q = []
          · rw [if_pos hPQ] at h2
            have hout : out = [] := (Option.some.injEq _ _).mp h2.symm
            have hP : P = [] := List.append_eq_nil.mp hPQ |>.1
            have hQ : Q = [] := List.append_eq_nil.mp hPQ |>.2
            refine ⟨1, [], DecState.done, [], rfl, ?_, by rw [hout]; rfl, ?_, by simp, ?_⟩
            · simp only [List.length_cons]
              omega
            · rw [hP, hQ]
              rfl
            · intro _ _
              right
              rw [hP]
              rfl
          · rw [if_neg hPQ] at h2
            exact absurd h2 Option.noConfusion
        · exfalso
          have h2 : (if b = 1 then decodeAll DecState.awaitLen (P ++ Q)
              else if b = 2 then (if P ++ Q = [] then some [] else none)
              else none) = some out := h
          rw [if_neg hb1, if_neg hb2] at h2
          exact Option.noConfusion h2
    | awaitLen =>
      by_cases hb : b = 0
      · exfalso
        subst hb
        exact Option.noConfusion h
      · have h2 : decodeAll (DecState.data b) (P ++ Q) = some out := by
          have h3 : (if b = 0 then none else decodeAll (DecState.data b) (P ++ Q)) =
              some out := h
          rwa [if_neg hb] at h3
        obtain ⟨c, o, st', out2, h1, hc, hout, hdec, hlen, hprog⟩ :=
          ih (DecState.data b) cap out h2
        refine ⟨c + 1, o, st', out2, ?_, ?_, hout, hdec, hlen, ?_⟩
        · show (if b = 0 then Except.error "ERROR_blockSize_invalid"
            else match modelDecompress (DecState.data b) P cap with
            | .ok (c, o, st') => Except.ok (c + 1, o, st')
            | .error m => Except.error m) = _
          rw [if_neg hb, h1]
        · simp only [List.length_cons]
          omega
        · intro _ hcap
          by_cases hPne : P = []
          · right
            subst hPne
            simp only [List.length_nil] at hc
            simp only [List.length_cons, List.length_nil]
            omega
          · rcases hprog hPne hcap with hp | hp
            · exact Or.inl hp
            · right
              simp only [List.length_cons]
              omega
    | data n =>
      have h2 : (decodeAll (if n ≤ 1 then DecState.awaitTag else DecState.data (n - 1))
          (P ++ Q)).map (fun u => b :: u) = some out := h
      obtain ⟨out2, hdec2, hout2⟩ := Option.map_eq_some'.mp h2
      by_cases hcap0 : cap = 0
      · subst hcap0
        refine ⟨0, [], DecState.data n, out, ?_, by simp, rfl, ?_, by simp, ?_⟩
        · rfl
        · exact h
        · intro _ hcap
          omega
      · obtain ⟨c, o, st', out3, h1, hc, hout, hdec, hlen, hprog⟩ :=
          ih (if n ≤ 1 then DecState.awaitTag else DecState.data (n - 1)) (cap - 1)
            out2 hdec2
        refine ⟨c + 1, b :: o, st', out3, ?_, ?_, ?_, hdec, ?_, ?_⟩
        · show (if cap = 0 then Except.ok (0, [], DecState.data n)
            else match modelDecompress
              (if n ≤ 1 then DecState.awaitTag else DecState.data (n - 1)) P (cap - 1) with
            | .ok (c, o, st') => Except.ok (c + 1, b :: o, st')
            | .error m => Except.error m) = _
          rw [if_neg hcap0, h1]
        · simp only [List.length_cons]
          omega
        · rw [← hout2, hout]
          rfl
        · simp only [List.length_cons]
          omega
        · intro _ _
          left
          simp
    | done =>
      exfalso
      exact Option.noConfusion h

theorem decodeAll_nil (st : DecState) : decodeAll st [] = some [] := by
  cases st <;> rfl

/-- One pull-loop iteration over the model decoder, from a state whose
remaining bytes decode to `out`: the body either declares end-of-stream
(with `out = []`) or produces a nonempty prefix of `out`, leaving a state
whose remaining bytes decode to the rest. -/
theorem underflowBody_decodes (n : Nat) (s1 : input_buffer DecState) (out : List Nat)
    (hdec : decodeAll s1.dctx (s1.sourceBuffer.drop s1.m_offset ++ s1.upstream) = some out)
    (hinv : s1.m_offset < s1.sourceBuffer.length ∨
      (s1.sourceBuffer.length = 0 ∧ s1.upstream = []))
    (hdest : 1 ≤ s1.destCap)
    (ih : ∀ (s : input_buffer DecState) (out : List Nat),
      decodeAll s.dctx (s.sourceBuffer.drop s.m_offset ++ s.upstream) = some out →
      s.m_offset ≤ s.sourceBuffer.length → 1 ≤ s.destCap → 1 ≤ s.srcCap →
      muIn s < n →
      (out = [] ∧ ∃ s', (underflow modelDecompress n s).2 = UOut.eof s') ∨
      (∃ o out2 s', o ≠ [] ∧ out = o ++ out2 ∧
        (underflow modelDecompress n s).2 = UOut.bytes o s' ∧
        decodeAll s'.dctx (s'.sourceBuffer.drop s'.m_offset ++ s'.upstream) = some out2 ∧
        s'.m_offset ≤ s'.sourceBuffer.length ∧
        s'.destCap = s.destCap ∧ s'.srcCap = s.srcCap ∧ muIn s' ≤ muIn s))
    (hsrc : 1 ≤ s1.srcCap)
    (hmu : muIn s1 ≤ n) :
    (out = [] ∧ ∃ s',
      (underflowBody modelDecompress (underflow modelDecompress n) s1).2 = UOut.eof s') ∨
    (∃ o out2 s', o ≠ [] ∧ out = o ++ out2 ∧
      (underflowBody modelDecompress (underflow modelDecompress n) s1).2 = UOut.bytes o s' ∧
      decodeAll s'.dctx (s'.sourceBuffer.drop s'.m_offset ++ s'.upstream) = some out2 ∧
      s'.m_offset ≤ s'.sourceBuffer.length ∧
      s'.destCap = s1.destCap ∧ s'.srcCap = s1.srcCap ∧ muIn s' ≤ muIn s1) := by
  by_cases hlen : s1.sourceBuffer.length = 0
  · left
    obtain ⟨hlen0, hup⟩ : s1.sourceBuffer.length = 0 ∧ s1.upstream = [] := by
      rcases hinv with h | h
      · omega
      · exact h
    have hbuf : s1.sourceBuffer = [] := List.length_eq_zero.mp hlen0
    constructor
    · rw [hbuf, hup] at hdec
      simp only [List.drop_nil, List.nil_append, decodeAll_nil, Option.some.injEq] at hdec
      exact hdec.symm
    · exact ⟨s1, by simp [underflowBody, hlen]⟩
  · have hoff : s1.m_offset < s1.sourceBuffer.length := by
      rcases hinv with h | h
      · exact h
      · exact absurd h.1 hlen
    have hreglen : (s1.sourceBuffer.drop s1.m_offset).length =
        s1.sourceBuffer.length - s1.m_offset := List.length_drop _ _
    have hregne : s1.sourceBuffer.drop s1.m_offset ≠ [] := by
      intro hnil
      rw [hnil] at hreglen
      simp only [List.length_nil] at hreglen
      omega
    obtain ⟨c, o, st', out2, h1, hc, hout, hdec2, holen, hprog⟩ :=
      modelDecompress_spec s1.upstream (s1.sourceBuffer.drop s1.m_offset) s1.dctx
        s1.destCap out hdec
    rw [hreglen] at hc
    have hregion2 : s1.sourceBuffer.drop (s1.m_offset + c) =
        (s1.sourceBuffer.drop s1.m_offset).drop c := by
      rw [List.drop_drop, Nat.add_comm]
    by_cases ho : o = []
    · subst ho
      simp only [List.nil_append] at hout
      have hcfull : c = (s1.sourceBuffer.drop s1.m_offset).length := by
        rcases hprog hregne hdest with h | h
        · exact absurd rfl h
        · exact h
      rw [hreglen] at hcfull
      have hdec3 : decodeAll st' (s1.sourceBuffer.drop (s1.m_offset + c) ++ s1.upstream) =
          some out2 := by
        rw [hregion2]
        exact hdec2
      have hmu2 : muIn { s1 with m_offset := s1.m_offset + c, dctx := st' } < n := by
        show (s1.sourceBuffer.length - (s1.m_offset + c)) + s1.upstream.length < n
        have hmu1 : muIn s1 = (s1.sourceBuffer.length - s1.m_offset) + s1.upstream.length :=
          rfl
        omega
      have hrec := ih { s1 with m_offset := s1.m_offset + c, dctx := st' } out2 hdec3
        (by
          show s1.m_offset + c ≤ s1.sourceBuffer.length
          omega)
        hdest hsrc hmu2
      rw [underflowBody_okEmpty modelDecompress _ s1 c st' hlen h1]
      rcases hrec with ⟨hout2, s', hres⟩ | ⟨o', out3, s', ho', hout3, hres, hdec4, hoffb, hdcap, hscap, hmu3⟩
      · left
        rw [hout, hout2]
        exact ⟨rfl, s', by simpa using hres⟩
      · right
        refine ⟨o', out3, s', ho', by rw [hout, hout3], by simpa using hres, hdec4, hoffb,
          hdcap, hscap, ?_⟩
        have hmu1 : muIn s1 = (s1.sourceBuffer.length - s1.m_offset) + s1.upstream.length :=
          rfl
        have hmu2' : muIn { s1 with m_offset := s1.m_offset + c, dctx := st' } =
            (s1.sourceBuffer.length - (s1.m_offset + c)) + s1.upstream.length := rfl
        omega
    · right
      refine ⟨o, out2, { s1 with m_offset := s1.m_offset + c, dctx := st' }, ho, hout, ?_,
        ?_, ?_, rfl, rfl, ?_⟩
      · rw [underflowBody_okBytes modelDecompress _ s1 c o st' hlen h1 ho]
      · show decodeAll st' (s1.sourceBuffer.drop (s1.m_offset + c) ++ s1.upstream) = some out2
        rw [hregion2]
        exact hdec2
      · show s1.m_offset + c ≤ s1.sourceBuffer.length
        omega
      · show (s1.sourceBuffer.length - (s1.m_offset + c)) + s1.upstream.length ≤ muIn s1
        have hmu1 : muIn s1 = (s1.sourceBuffer.length - s1.m_offset) + s1.upstream.length :=
          rfl
        omega

/-- The pull loop over the model decoder, from any state whose remaining
bytes decode to `out` (with enough fuel): it either declares end-of-stream
(exactly when nothing remains, `out = []`) or returns a nonempty prefix of
`out` and a state whose remaining bytes decode to the rest. -/
theorem underflow_decodes :
    ∀ (fuel : Nat) (s : input_buffer DecState) (out : List Nat),
      decodeAll s.dctx (s.sourceBuffer.drop s.m_offset ++ s.upstream) = some out →
      s.m_offset ≤ s.sourceBuffer.length → 1 ≤ s.destCap → 1 ≤ s.srcCap →
      muIn s < fuel →
      (out = [] ∧ ∃ s', (underflow modelDecompress fuel s).2 = UOut.eof s') ∨
      (∃ o out2 s', o ≠ [] ∧ out = o ++ out2 ∧
        (underflow modelDecompress fuel s).2 = UOut.bytes o s' ∧
        decodeAll s'.dctx (s'.sourceBuffer.drop s'.m_offset ++ s'.upstream) = some out2 ∧
        s'.m_offset ≤ s'.sourceBuffer.length ∧
        s'.destCap = s.destCap ∧ s'.srcCap = s.srcCap ∧ muIn s' ≤ muIn s) := by
  intro fuel
  induction fuel with
  | zero =>
    intro s out _ _ _ _ hmu
    omega
  | succ n ih =>
    intro s out hdec hoff hdest hsrc hmu
    by_cases href : s.m_offset = s.sourceBuffer.length
    · set got := min s.srcCap s.upstream.length with hgot
      set s1 : input_buffer DecState := { s with
        sourceBuffer := s.upstream.take got,
        m_offset := 0,
        upstream := s.upstream.drop got,
        readCalls := s.readCalls + 1 } with hs1
      have hunf : (underflow modelDecompress (n + 1) s).2 =
          (underflowBody modelDecompress (underflow modelDecompress n) s1).2 := by
        rw [underflow]
        simp only [href, if_true]
      have hgotle : got ≤ s.upstream.length := by
        rw [hgot]
        exact Nat.min_le_right _ _
      have hlen1 : s1.sourceBuffer.length = got := by
        show (s.upstream.take got).length = got
        simp [List.length_take, Nat.min_eq_left hgotle]
      have hdec1 : decodeAll s1.dctx (s1.sourceBuffer.drop s1.m_offset ++ s1.upstream) =
          some out := by
        show decodeAll s.dctx ((s.upstream.take got).drop 0 ++ s.upstream.drop got) = some out
        rw [List.drop_zero, List.take_append_drop]
        have hreg : s.sourceBuffer.drop s.m_offset = [] := by
          rw [href]
          exact List.drop_length _
        rw [hreg, List.nil_append] at hdec
        exact hdec
      have hinv1 : s1.m_offset < s1.sourceBuffer.length ∨
          (s1.sourceBuffer.length = 0 ∧ s1.upstream = []) := by
        by_cases hz : got = 0
        · right
          constructor
          · rw [hlen1, hz]
          · show s.upstream.drop got = []
            have hup0 : s.upstream.length = 0 := by omega
            rw [List.length_eq_zero.mp hup0, List.drop_nil]
        · left
          rw [hlen1]
          show 0 < got
          omega
      have hmus : muIn s = s.upstream.length := by
        show (s.sourceBuffer.length - s.m_offset) + s.upstream.length = s.upstream.length
        omega
      have hmu1 : muIn s1 ≤ n := by
        have : muIn s1 = (got - 0) + (s.upstream.length - got) := by
          show (s1.sourceBuffer.length - s1.m_offset) + s1.upstream.length = _
          rw [hlen1]
          show got - 0 + (s.upstream.drop got).length = _
          rw [List.length_drop]
        omega
      have hmain := underflowBody_decodes n s1 out hdec1 hinv1 hdest ih hsrc hmu1
      rcases hmain with ⟨hout, s', hres⟩ | ⟨o, out2, s', ho, hout, hres, hdec4, hoffb, hdcap, hscap, hmub⟩
      · left
        exact ⟨hout, s', by rw [hunf]; exact hres⟩
      · right
        refine ⟨o, out2, s', ho, hout, by rw [hunf]; exact hres, hdec4, hoffb, hdcap, hscap, ?_⟩
        have hmu1' : muIn s1 = (got - 0) + (s.upstream.length - got) := by
          show (s1.sourceBuffer.length - s1.m_offset) + s1.upstream.length = _
          rw [hlen1]
          show got - 0 + (s.upstream.drop got).length = _
          rw [List.length_drop]
        omega
    · have hunf : (underflow modelDecompress (n + 1) s).2 =
          (underflowBody modelDecompress (underflow modelDecompress n) s).2 := by
        rw [underflow]
        simp only [href, if_false]
      have hmain := underflowBody_decodes n s out hdec (Or.inl (by omega)) hdest ih hsrc
        (by omega)
      rcases hmain with ⟨hout, s', hres⟩ | ⟨o, out2, s', ho, hout, hres, hdec4, hoffb, hdcap, hscap, hmub⟩
      · left
        exact ⟨hout, s', by rw [hunf]; exact hres⟩
      · right
        exact ⟨o, out2, s', ho, hout, by rw [hunf]; exact hres, hdec4, hoffb, hdcap, hscap,
          hmub⟩

/-- Draining the adapter returns exactly the reference decode of the whole
remaining stream, for any sufficient fuel. -/
theorem readAll_decodes :
    ∀ (n uFuel : Nat) (s : input_buffer DecState) (out : List Nat),
      decodeAll s.dctx (s.sourceBuffer.drop s.m_offset ++ s.upstream) = some out →
      s.m_offset ≤ s.sourceBuffer.length → 1 ≤ s.destCap → 1 ≤ s.srcCap →
      muIn s < uFuel → out.length < n →
      readAll modelDecompress uFuel n s = some out := by
  intro n
  induction n with
  | zero =>
    intro uFuel s out _ _ _ _ _ hlen
    omega
  | succ m ih =>
    intro uFuel s out hdec hoff hdest hsrc hmu hlen
    rcases underflow_decodes uFuel s out hdec hoff hdest hsrc hmu with
      ⟨hout, s', hres⟩ | ⟨o, out2, s', ho, hout, hres, hdec4, hoffb, hdcap, hscap, hmub⟩
    · simp only [readAll, hres]
      rw [hout]
    · simp only [readAll, hres]
      have holen : 1 ≤ o.length := by
        cases o with
        | nil => exact absurd rfl ho
        | cons x t => simp
      have hlen2 : out2.length < m := by
        have : out.length = o.length + out2.length := by
          rw [hout, List.length_append]
        omega
      rw [ih uFuel s' out2 hdec4 hoffb (hdcap ▸ hdest) (hscap ▸ hsrc)
        (by omega) hlen2, Option.map_some']
      rw [hout]

theorem flatten_length_le_frames :
    ∀ blocks : List (List Nat), blocks.flatten.length ≤ (frames blocks).length := by
  intro blocks
  induction blocks with
  | nil => simp [frames]
  | cons bl rest ih =>
    simp only [List.flatten_cons, List.length_append, frames, List.length_cons]
    omega

/-- C1: round-trip law.  For every byte sequence `S` (the empty one
included) and every buffer capacity, compressing `S` through the sink
adapter over the model encoder (constructed, fed `S`, closed) and feeding
the resulting sink contents through the source adapter over the model
decoder yields exactly `S`. -/
theorem c1_round_trip (S : List Nat) (cap srcCap destCap : Nat)
    (hsrc : 1 ≤ srcCap) (hdest : 1 ≤ destCap) :
    ∃ B, compressStream modelEncoder cap [] S = .ok B ∧
      decompressStream modelDecompress DecState.start srcCap destCap B = some S := by
  obtain ⟨blocks, hcomp, hflat, hne⟩ := compressStream_blocks cap S
  refine ⟨0 :: (frames blocks ++ [2]), hcomp, ?_⟩
  have hdecB : decodeAll DecState.start (0 :: (frames blocks ++ [2])) = some S := by
    show decodeAll DecState.awaitTag (frames blocks ++ [2]) = some S
    rw [decodeAll_frames blocks hne, hflat]
  have hlenS : S.length ≤ (frames blocks).length := by
    rw [← hflat]
    exact flatten_length_le_frames blocks
  show readAll modelDecompress ((0 :: (frames blocks ++ [2])).length + 1)
    ((0 :: (frames blocks ++ [2])).length + 2)
    (initInput DecState.start srcCap destCap (0 :: (frames blocks ++ [2]))) = some S
  apply readAll_decodes
  · show decodeAll DecState.start (([] : List Nat).drop 0 ++ (0 :: (frames blocks ++ [2]))) =
      some S
    simpa using hdecB
  · show (0 : Nat) ≤ ([] : List Nat).length
    simp
  · exact hdest
  · exact hsrc
  · show (([] : List Nat).length - 0) + (0 :: (frames blocks ++ [2])).length <
      (0 :: (frames blocks ++ [2])).length + 1
    simp
  · show S.length < (0 :: (frames blocks ++ [2])).length + 2
    simp only [List.length_cons, List.length_append]
    omega

theorem c1_round_trip_witness :
    1 ≤ 2 ∧ ∃ B, compressStream modelEncoder 3 [] [3, 1, 4, 1, 5] = .ok B ∧
      decompressStream modelDecompress DecState.start 2 2 B = some [3, 1, 4, 1, 5] :=
  ⟨by decide, c1_round_trip [3, 1, 4, 1, 5] 3 2 2 (by decide) (by decide)⟩

/-- C10: the pull loop terminates exactly under a progress condition the
spec's decoder contract does not state.  (1) For every decoder that never
consumes more than offered and, on nonempty input with nonzero output
capacity, consumes at least one byte or produces at least one byte, the
loop finishes within `muIn s + 1` iterations.  (2) A decoder that may
consume zero bytes and produce zero bytes while unconsumed input remains —
allowed by the §6 contract — makes `underflow` loop forever (fuel
exhaustion at every fuel). -/
theorem c10_progress_termination :
    (∀ (σ : Type) (D : DecompressFn σ),
      (∀ (st : σ) (inp : List Nat) (cap c : Nat) (o : List Nat) (d' : σ),
        D st inp cap = .ok (c, o, d') → c ≤ inp.length) →
      (∀ (st : σ) (inp : List Nat) (cap c : Nat) (o : List Nat) (d' : σ),
        inp ≠ [] → 1 ≤ cap → D st inp cap = .ok (c, o, d') → 1 ≤ c ∨ o ≠ []) →
      ∀ (fuel : Nat) (s : input_buffer σ),
        s.m_offset ≤ s.sourceBuffer.length → 1 ≤ s.destCap →
        muIn s < fuel → (underflow D fuel s).2 ≠ UOut.spin) ∧
    (∀ fuel : Nat, (underflow stuckDecoder fuel stuckState).2 = UOut.spin) := by
  constructor
  · intro σ D hcons hprog fuel
    induction fuel with
    | zero => intro s _ _ hmu; omega
    | succ n ih =>
      intro s hinv hdest hmu
      by_cases href : s.m_offset = s.sourceBuffer.length
      · rw [underflow]
        simp only [href, if_true]
        set got := min s.srcCap s.upstream.length with hgot
        set s1 : input_buffer σ := { s with
          sourceBuffer := s.upstream.take got,
          m_offset := 0,
          upstream := s.upstream.drop got,
          readCalls := s.readCalls + 1 } with hs1
        have hgotle : got ≤ s.upstream.length := by
          rw [hgot]; exact Nat.min_le_right _ _
        have hlen1 : s1.sourceBuffer.length = got := by
          simp [hs1, List.length_take, Nat.min_eq_left hgotle]
        have hbody := underflowBody_no_spin D n s1 hcons hprog
          (by
            rw [hlen1]
            show 0 < got ∨ got = 0
            omega)
          hdest ih
          (by
            show (s1.sourceBuffer.length - s1.m_offset) + s1.upstream.length ≤ n
            rw [hlen1]
            have h2 : s1.upstream.length = s.upstream.length - got := by
              simp [hs1, List.length_drop]
            have h3 : muIn s = (s.sourceBuffer.length - s.m_offset) + s.upstream.length := rfl
            have h4 : s1.m_offset = 0 := rfl
            omega)
        simpa using hbody
      · rw [underflow]
        simp only [href, if_false]
        exact underflowBody_no_spin D n s hcons hprog (Or.inl (by omega)) hdest ih
          (by
            have h3 : muIn s = (s.sourceBuffer.length - s.m_offset) + s.upstream.length := rfl
            omega)
  · intro fuel
    induction fuel with
    | zero => rfl
    | succ n ih => rw [stuckDecoder_step]; exact ih

theorem c10_progress_termination_witness :
    (underflow dropDecoder 4 threeByteState).2 ≠ UOut.spin ∧
    (underflow stuckDecoder 7 stuckState).2 = UOut.spin := by
  refine ⟨c10_progress_termination.1 Unit dropDecoder ?_ ?_ 4 threeByteState
    (by decide) (by decide) (by decide), c10_progress_termination.2 7⟩
  · intro st inp cap c o d' h
    simp only [dropDecoder, Except.ok.injEq, Prod.mk.injEq] at h
    omega
  · intro st inp cap c o d' hne _ h
    simp only [dropDecoder, Except.ok.injEq, Prod.mk.injEq] at h
    left
    have : inp.length ≠ 0 := fun hz => hne (List.length_eq_zero.mp hz)
    omega

theorem c8_boundary_flush_witness :
    ∃ b0 b1 b2,
      constructOutput modelEncoder 3 [] = (.ok b0, 0) ∧
      writeBytes modelEncoder b0 [5, 6] = .ok b1 ∧
      b1.ctx = [] ∧ b1.sink = b0.sink ∧ b1.sourceBuffer = [5, 6] ∧
      output_buffer.sputc modelEncoder b1 7 = .ok b2 ∧
      b2.ctx = [[5, 6] ++ [7]] ∧ b2.sourceBuffer = [] ∧
      b2.sink = b0.sink ++ modelUpdate ([5, 6] ++ [7]) :=
  c8_boundary_flush 3 [5, 6] 7 (by decide) (by decide)
